import Mathlib

/-!
Verification of the topotato core (network test harness) against its
natural-language specification.

Shallow embedding notes:
* Python floats used as timestamps / delays are modelled as rationals (ℚ);
  the code only compares, adds and multiplies them.
* Python byte strings are modelled as lists of naturals (`List ℕ`).
* Python dicts are modelled as association lists in insertion order,
  matching CPython dict semantics.
-/

namespace Topotato

/-! ## Timeline (src/topotato/timeline.py)

`TimedElement.ts` is a pair `(timestamp, sequence)`; `__lt__` compares
these pairs with Python tuple comparison, i.e. lexicographically.
-/

/-- A `TimedElement` of timeline.py: carries the `(timestamp, sequence)`
ordering key (`ts` property).  `tag` stands for the rest of the payload and
serves only to distinguish elements. -/
structure TimedElement where
  t : ℚ
  seq : ℕ
  tag : ℕ
deriving DecidableEq, Repr

/-- The ordering key of a `TimedElement`: the `ts` property `(timestamp, sequence)`. -/
def TimedElement.key (e : TimedElement) : ℚ × ℕ := (e.t, e.seq)

/-- Python tuple `<` on `(float, int)` pairs: lexicographic. -/
def tsLt (a b : ℚ × ℕ) : Prop := a.1 < b.1 ∨ (a.1 = b.1 ∧ a.2 < b.2)

/-- Lexicographic `≤` on `(float, int)` pairs. -/
def tsLe (a b : ℚ × ℕ) : Prop := a.1 < b.1 ∨ (a.1 = b.1 ∧ a.2 ≤ b.2)

instance (a b : ℚ × ℕ) : Decidable (tsLt a b) := by unfold tsLt; infer_instance

instance (a b : ℚ × ℕ) : Decidable (tsLe a b) := by unfold tsLe; infer_instance

theorem tsLe_refl (a : ℚ × ℕ) : tsLe a a := Or.inr ⟨rfl, le_refl _⟩

theorem tsLe_of_tsLt {a b : ℚ × ℕ} (h : tsLt a b) : tsLe a b := by
  rcases h with h | ⟨h1, h2⟩
  · exact Or.inl h
  · exact Or.inr ⟨h1, le_of_lt h2⟩

theorem not_tsLt_iff_tsLe {a b : ℚ × ℕ} : ¬ tsLt b a ↔ tsLe a b := by
  unfold tsLt tsLe
  constructor
  · intro h
    push_neg at h
    rcases lt_trichotomy a.1 b.1 with hq | hq | hq
    · exact Or.inl hq
    · exact Or.inr ⟨hq, h.2 hq.symm⟩
    · exact absurd h.1 (not_le_of_lt hq)
  · intro h
    rcases h with h | ⟨h1, h2⟩
    · rintro (hq | ⟨hq, _⟩)
      · exact absurd (lt_trans h hq) (lt_irrefl _)
      · exact absurd hq (ne_of_gt h)
    · rintro (hq | ⟨hq, hn⟩)
      · exact absurd (h1 ▸ hq) (lt_irrefl _)
      · exact absurd (lt_of_lt_of_le hn h2) (lt_irrefl _)

theorem tsLt_of_tsLt_of_tsLe {a b c : ℚ × ℕ} (h1 : tsLt a b) (h2 : tsLe b c) :
    tsLt a c := by
  rcases h1 with h1 | ⟨h1q, h1n⟩ <;> rcases h2 with h2 | ⟨h2q, h2n⟩
  · exact Or.inl (lt_trans h1 h2)
  · exact Or.inl (h2q ▸ h1)
  · exact Or.inl (h1q ▸ h2)
  · exact Or.inr ⟨h1q.trans h2q, lt_of_lt_of_le h1n h2n⟩

theorem tsLe_trans {a b c : ℚ × ℕ} (h1 : tsLe a b) (h2 : tsLe b c) : tsLe a c := by
  rcases h1 with h1 | ⟨h1q, h1n⟩
  · exact tsLe_of_tsLt (tsLt_of_tsLt_of_tsLe (Or.inl h1) h2)
  · rcases h2 with h2 | ⟨h2q, h2n⟩
    · exact Or.inl (h1q ▸ h2)
    · exact Or.inr ⟨h1q.trans h2q, le_trans h1n h2n⟩

/-- Comparison used by `bisect.insort(self.history, element)`:
`TimedElement.__lt__` compares the `ts` keys. -/
def elemLt (a b : TimedElement) : Prop := tsLt a.key b.key

/-- Non-strict version of `elemLt`, the sortedness relation of the history. -/
def elemLe (a b : TimedElement) : Prop := tsLe a.key b.key

instance (a b : TimedElement) : Decidable (elemLt a b) := by unfold elemLt; infer_instance

instance (a b : TimedElement) : Decidable (elemLe a b) := by unfold elemLe; infer_instance

/-- `bisect.insort(a, x)` (right bisection): insert `x` into the sorted list
`a` immediately before the first element strictly greater than `x`, hence
after all elements already present with an equal key. -/
def insort (x : TimedElement) : List TimedElement → List TimedElement
  | [] => [x]
  | y :: ys => if tsLt x.key y.key then x :: y :: ys else y :: insort x ys

/-- `EventMux` state: the sorted `history` plus, for each registered receiver
in `self._dispatch` (registration order), the list of elements delivered to
it so far. -/
structure EventMux where
  history : List TimedElement
  subs : List (List TimedElement)

/-- `EventMux.dispatch`: forward `elements` to every registered receiver,
then `bisect.insort` each element into the history. -/
def EventMux.dispatch (m : EventMux) (elements : List TimedElement) : EventMux :=
  { subs := m.subs.map (fun rcvd => rcvd ++ elements),
    history := elements.foldl (fun h e => insort e h) m.history }

/-- `bisect.bisect_left(self.history, _Dummy(backfill))`: the leftmost
insertion point for key `(backfill, 0)`, i.e. the number of leading history
elements strictly below that key. -/
def bisect_left : List TimedElement → ℚ → ℕ
  | [], _ => 0
  | y :: ys, backfill =>
    if tsLt y.key (backfill, 0) then bisect_left ys backfill + 1 else 0

/-- `EventMux.dispatch_add`: when a backfill cutoff is given, first deliver
the history slice from the left bisection point on to the new receiver, then
append the receiver to `self._dispatch`. -/
def EventMux.dispatch_add (m : EventMux) (backfill : Option ℚ) : EventMux :=
  match backfill with
  | some T => { m with subs := m.subs ++ [m.history.drop (bisect_left m.history T)] }
  | none => { m with subs := m.subs ++ [[]] }

/-- Fold a sequence of `dispatch` calls (one per batch of elements). -/
def EventMux.dispatchAll (m : EventMux) (batches : List (List TimedElement)) : EventMux :=
  batches.foldl EventMux.dispatch m

/-- A freshly constructed `EventMux`: empty history, no receivers. -/
def EventMux.init : EventMux := ⟨[], []⟩

/-- The mux state reached by dispatching `batches` in order on a fresh mux. -/
def muxRun (batches : List (List TimedElement)) : EventMux :=
  EventMux.init.dispatchAll batches

/-! ### Lemmas about `insort` -/

theorem insort_perm (x : TimedElement) (l : List TimedElement) :
    List.Perm (insort x l) (x :: l) := by
  induction l with
  | nil => simp [insort]
  | cons y ys ih =>
    by_cases h : tsLt x.key y.key
    · simp [insort, h]
    · simp only [insort, if_neg h]
      exact (ih.cons y).trans (List.Perm.swap x y ys)

theorem mem_insort {x b : TimedElement} {l : List TimedElement} :
    b ∈ insort x l ↔ b = x ∨ b ∈ l := by
  rw [(insort_perm x l).mem_iff]
  simp

theorem sorted_insort (x : TimedElement) {l : List TimedElement}
    (h : l.Sorted elemLe) : (insort x l).Sorted elemLe := by
  induction l with
  | nil => simp [insort, List.sorted_singleton]
  | cons y ys ih =>
    rw [List.sorted_cons] at h
    obtain ⟨hy, hys⟩ := h
    by_cases hlt : tsLt x.key y.key
    · rw [insort, if_pos hlt, List.sorted_cons]
      refine ⟨?_, (List.sorted_cons).2 ⟨hy, hys⟩⟩
      intro b hb
      rcases List.mem_cons.1 hb with rfl | hb
      · exact tsLe_of_tsLt hlt
      · exact tsLe_of_tsLt (tsLt_of_tsLt_of_tsLe hlt (hy b hb))
    · rw [insort, if_neg hlt, List.sorted_cons]
      refine ⟨?_, ih hys⟩
      intro b hb
      rcases mem_insort.1 hb with rfl | hb
      · exact not_tsLt_iff_tsLe.1 hlt
      · exact hy b hb

/-- Stability of `insort`: the subsequence of elements carrying any one
fixed key gains the new element at its end (when keys match) and is
otherwise untouched. -/
theorem filter_insort (x : TimedElement) {l : List TimedElement}
    (h : l.Sorted elemLe) (k : ℚ × ℕ) :
    (insort x l).filter (fun e => decide (e.key = k)) =
      l.filter (fun e => decide (e.key = k)) ++
        (if x.key = k then [x] else []) := by
  induction l with
  | nil => by_cases hk : x.key = k <;> simp [insort, hk]
  | cons y ys ih =>
    rw [List.sorted_cons] at h
    obtain ⟨hy, hys⟩ := h
    by_cases hlt : tsLt x.key y.key
    · rw [insort, if_pos hlt]
      by_cases hk : x.key = k
      · have hnil : (y :: ys).filter (fun e => decide (e.key = k)) = [] := by
          rw [List.filter_eq_nil_iff]
          intro b hb
          have hxb : tsLt x.key b.key := by
            rcases List.mem_cons.1 hb with rfl | hb
            · exact hlt
            · exact tsLt_of_tsLt_of_tsLe hlt (hy b hb)
          simp only [decide_eq_true_eq]
          intro hbk
          rw [← hk] at hbk
          rw [hbk] at hxb
          rcases hxb with hq | ⟨_, hn⟩
          · exact absurd hq (lt_irrefl _)
          · exact absurd hn (lt_irrefl _)
        rw [List.filter_cons_of_pos (by simpa using hk), hnil]
        simp [hk]
      · rw [List.filter_cons_of_neg (by simpa using hk)]
        simp [hk]
    · rw [insort, if_neg hlt]
      by_cases hyk : y.key = k
      · rw [List.filter_cons_of_pos (by simpa using hyk),
          List.filter_cons_of_pos (by simpa using hyk), ih hys, List.cons_append]
      · rw [List.filter_cons_of_neg (by simpa using hyk),
          List.filter_cons_of_neg (by simpa using hyk), ih hys]

/-! ### Lemmas about dispatching batches -/

/-- History insertion for one `dispatch` call, as a fold of `insort`. -/
def insortBatch (h : List TimedElement) (elements : List TimedElement) :
    List TimedElement :=
  elements.foldl (fun acc e => insort e acc) h

theorem insortBatch_perm (h elements : List TimedElement) :
    List.Perm (insortBatch h elements) (h ++ elements) := by
  induction elements generalizing h with
  | nil => simp [insortBatch]
  | cons e es ih =>
    refine ((ih (insort e h)).trans ?_)
    exact ((insort_perm e h).append_right es).trans (List.perm_middle).symm

theorem sorted_insortBatch {h : List TimedElement} (elements : List TimedElement)
    (hs : h.Sorted elemLe) : (insortBatch h elements).Sorted elemLe := by
  induction elements generalizing h with
  | nil => exact hs
  | cons e es ih => exact ih (sorted_insort e hs)

theorem filter_insortBatch {h : List TimedElement} (elements : List TimedElement)
    (hs : h.Sorted elemLe) (k : ℚ × ℕ) :
    (insortBatch h elements).filter (fun e => decide (e.key = k)) =
      h.filter (fun e => decide (e.key = k)) ++
        elements.filter (fun e => decide (e.key = k)) := by
  induction elements generalizing h with
  | nil => simp [insortBatch]
  | cons e es ih =>
    have step := filter_insort e hs k
    show (insortBatch (insort e h) es).filter _ = _
    rw [ih (sorted_insort e hs), step]
    by_cases hk : e.key = k
    · rw [List.filter_cons_of_pos (by simpa using hk)]
      simp [hk]
    · rw [List.filter_cons_of_neg (by simpa using hk)]
      simp [hk]

theorem dispatchAll_history (m : EventMux) (batches : List (List TimedElement)) :
    (m.dispatchAll batches).history = insortBatch m.history batches.flatten := by
  induction batches generalizing m with
  | nil => simp [EventMux.dispatchAll, insortBatch]
  | cons b bs ih =>
    show (EventMux.dispatchAll (m.dispatch b) bs).history = _
    rw [ih]
    simp [EventMux.dispatch, insortBatch, List.foldl_append]

theorem dispatchAll_subs (m : EventMux) (batches : List (List TimedElement)) :
    (m.dispatchAll batches).subs = m.subs.map (fun r => r ++ batches.flatten) := by
  induction batches generalizing m with
  | nil => simp [EventMux.dispatchAll]
  | cons b bs ih =>
    show (EventMux.dispatchAll (m.dispatch b) bs).subs = _
    rw [ih]
    simp [EventMux.dispatch, Function.comp]

/-- On a sorted history, dropping up to the left bisection point for the
dummy key `(T, 0)` keeps exactly the elements with timestamp `≥ T` (the
sequence number is a natural, so keys `≥ (T, 0)` are exactly timestamps `≥ T`). -/
theorem drop_bisect_left {l : List TimedElement} (hs : l.Sorted elemLe) (T : ℚ) :
    l.drop (bisect_left l T) = l.filter (fun e => decide (T ≤ e.t)) := by
  induction l with
  | nil => simp [bisect_left]
  | cons y ys ih =>
    rw [List.sorted_cons] at hs
    obtain ⟨hy, hys⟩ := hs
    by_cases hlt : tsLt y.key (T, 0)
    · have hyt : y.t < T := by
        rcases hlt with h | ⟨_, h2⟩
        · exact h
        · exact absurd h2 (Nat.not_lt_zero _)
      rw [bisect_left, if_pos hlt, List.drop_succ_cons, ih hys,
        List.filter_cons_of_neg (by simp [not_le_of_lt hyt])]
    · have hTy : T ≤ y.t := by
        rcases not_tsLt_iff_tsLe.1 hlt with h | ⟨h1, _⟩
        · exact le_of_lt h
        · exact le_of_eq h1
      rw [bisect_left, if_neg hlt, List.drop_zero]
      symm
      rw [List.filter_eq_self]
      intro b hb
      rcases List.mem_cons.1 hb with rfl | hb
      · simpa using hTy
      · have : tsLe y.key b.key := hy b hb
        have hyb : y.t ≤ b.t := by
          rcases this with h | ⟨h1, _⟩
          · exact le_of_lt h
          · exact le_of_eq h1
        simpa using le_trans hTy hyb

/-- The stream of elements a receiver attached by `dispatch_add`
(with backfill cutoff `T`) has observed after `batches` further
`dispatch` calls: its backfill slice followed by all live batches. -/
def subStream (m : EventMux) (T : ℚ) (batches : List (List TimedElement)) :
    List TimedElement :=
  ((m.dispatch_add (some T)).dispatchAll batches).subs.getLastD []

/-- C2: after every sequence of `dispatch` calls, the history is sorted by
the `(timestamp, sequence)` key, it holds exactly the dispatched elements,
and for each fixed key the equal-key elements appear in arrival order. -/
theorem c2_history_sorted_and_stable (batches : List (List TimedElement)) :
    (muxRun batches).history.Sorted elemLe ∧
    List.Perm (muxRun batches).history batches.flatten ∧
    ∀ k : ℚ × ℕ,
      (muxRun batches).history.filter (fun e => decide (e.key = k)) =
        batches.flatten.filter (fun e => decide (e.key = k)) := by
  have hh : (muxRun batches).history = insortBatch [] batches.flatten :=
    dispatchAll_history _ _
  refine ⟨?_, ?_, fun k => ?_⟩
  · rw [hh]
    exact sorted_insortBatch _ List.sorted_nil
  · rw [hh]
    simpa using insortBatch_perm [] batches.flatten
  · rw [hh]
    simpa using filter_insortBatch batches.flatten List.sorted_nil k

/-- C1: a receiver attached via `dispatch_add` with backfill cutoff `T` to a
(sorted) history observes exactly the history elements with timestamp `≥ T`,
in history order, immediately followed by every element of every batch
dispatched after attachment — and the delivery counts are exact (each
backfilled element once per history occurrence, each live element once per
dispatch occurrence, nothing else). -/
theorem c1_backfill_exact (m : EventMux) (hs : m.history.Sorted elemLe)
    (T : ℚ) (batches : List (List TimedElement)) :
    subStream m T batches =
      m.history.filter (fun e => decide (T ≤ e.t)) ++ batches.flatten ∧
    ∀ e : TimedElement,
      (subStream m T batches).count e =
        (m.history.filter (fun x => decide (T ≤ x.t))).count e +
          batches.flatten.count e := by
  have hsubs : (m.dispatch_add (some T)).subs =
      m.subs ++ [m.history.drop (bisect_left m.history T)] := rfl
  have hstream : subStream m T batches =
      m.history.drop (bisect_left m.history T) ++ batches.flatten := by
    unfold subStream
    rw [dispatchAll_subs, hsubs, List.map_append, List.map_singleton,
      List.getLastD_concat]
  constructor
  · rw [hstream, drop_bisect_left hs]
  · intro e
    rw [hstream, drop_bisect_left hs, List.count_append]

/-- Witness for C1: history at timestamps 1, 2, 3, backfill cutoff 2 and a
live event at 4 yield exactly the events at 2, 3, 4, in order. -/
theorem c1_backfill_exact_witness :
    ([⟨1, 0, 1⟩, ⟨2, 0, 2⟩, ⟨3, 0, 3⟩] : List TimedElement).Sorted elemLe ∧
    subStream ⟨[⟨1, 0, 1⟩, ⟨2, 0, 2⟩, ⟨3, 0, 3⟩], []⟩ 2 [[⟨4, 0, 4⟩]] =
      [⟨2, 0, 2⟩, ⟨3, 0, 3⟩, ⟨4, 0, 4⟩] := by
  have hs : ([⟨1, 0, 1⟩, ⟨2, 0, 2⟩, ⟨3, 0, 3⟩] : List TimedElement).Sorted elemLe := by
    decide
  refine ⟨hs, ?_⟩
  rw [(c1_backfill_exact ⟨[⟨1, 0, 1⟩, ⟨2, 0, 2⟩, ⟨3, 0, 3⟩], []⟩ hs 2 [[⟨4, 0, 4⟩]]).1]
  decide

/-! ## TimingParams (src/topotato/timeline.py)

`TimingParams.ticks` is a generator: it captures `now = time.time()`,
yields an immediate tick (`-inf`), computes `start` from the anchor
callable and then yields every `start + k * delay` (`k ≥ 1`) that is
before `start + (maxwait or 0.0)` and not already in the past.
The generator requires `0 < delay` to terminate; the harness always
constructs it with a positive retry interval.
-/

/-- `TimingParams`: retry interval and maximum wait, with the anchor
callable `_start` modelled as the `start` argument of `ticks`. -/
structure TimingParams where
  delay : ℚ
  maxwait : Option ℚ

/-- The `while nexttick < deadline` loop body of `TimingParams.ticks`:
yield `nexttick` when `nexttick >= now`, then advance by `delay`. -/
def tickLoop (delay : ℚ) (hd : 0 < delay) (now deadline : ℚ) (nexttick : ℚ) :
    List ℚ :=
  if h : nexttick < deadline then
    (if now ≤ nexttick then [nexttick] else []) ++
      tickLoop delay hd now deadline (nexttick + delay)
  else []
termination_by (⌈(deadline - nexttick) / delay⌉).toNat
decreasing_by
  have hpos : (0 : ℚ) < (deadline - nexttick) / delay := div_pos (by linarith) hd
  have hceil : 0 < ⌈(deadline - nexttick) / delay⌉ := Int.ceil_pos.mpr hpos
  have heq : (deadline - (nexttick + delay)) / delay =
      (deadline - nexttick) / delay - 1 := by
    field_simp
    ring
  rw [heq, Int.ceil_sub_one]
  omega

/-- `TimingParams.ticks`: the full list of ticks the generator yields, given
the invocation instant `now` and the anchor value `start`.  The immediate
tick `float("-inf")` is modelled as `⊥` in `WithBot ℚ`. -/
def TimingParams.ticks (p : TimingParams) (hd : 0 < p.delay) (now start : ℚ) :
    List (WithBot ℚ) :=
  ⊥ :: (tickLoop p.delay hd now (start + p.maxwait.getD 0) (start + p.delay)).map
    WithBot.some

theorem mem_tickLoop {delay : ℚ} (hd : 0 < delay) (now deadline : ℚ) :
    ∀ (n : ℕ) (nexttick : ℚ), (⌈(deadline - nexttick) / delay⌉).toNat ≤ n →
      ∀ q : ℚ, (q ∈ tickLoop delay hd now deadline nexttick ↔
        ((∃ k : ℕ, q = nexttick + k * delay) ∧ q < deadline ∧ now ≤ q)) := by
  intro n
  induction n with
  | zero =>
    intro nt hn q
    have hge : ¬ nt < deadline := by
      intro hlt
      have hpos : 0 < ⌈(deadline - nt) / delay⌉ :=
        Int.ceil_pos.mpr (div_pos (by linarith) hd)
      omega
    rw [tickLoop, dif_neg hge]
    simp only [List.not_mem_nil, false_iff]
    rintro ⟨⟨k, rfl⟩, hqd, -⟩
    have hk : (0 : ℚ) ≤ (k : ℚ) * delay :=
      mul_nonneg (Nat.cast_nonneg k) (le_of_lt hd)
    exact hge (by linarith)
  | succ n ih =>
    intro nt hn q
    by_cases hlt : nt < deadline
    · rw [tickLoop, dif_pos hlt]
      have hstep : (⌈(deadline - (nt + delay)) / delay⌉).toNat ≤ n := by
        have heq : (deadline - (nt + delay)) / delay =
            (deadline - nt) / delay - 1 := by
          field_simp
          ring
        rw [heq, Int.ceil_sub_one]
        omega
      rw [List.mem_append, ih (nt + delay) hstep q]
      constructor
      · rintro (hq | ⟨⟨k, rfl⟩, hqd, hnow⟩)
        · by_cases hnow : now ≤ nt
          · rw [if_pos hnow] at hq
            rcases List.mem_singleton.1 hq with rfl
            exact ⟨⟨0, by push_cast; ring⟩, hlt, hnow⟩
          · rw [if_neg hnow] at hq
            exact absurd hq (List.not_mem_nil _)
        · exact ⟨⟨k + 1, by push_cast; ring⟩, hqd, hnow⟩
      · rintro ⟨⟨k, rfl⟩, hqd, hnow⟩
        rcases k with - | j
        · left
          have hq : nt + (0 : ℕ) * delay = nt := by push_cast; ring
          rw [hq] at hqd hnow ⊢
          rw [if_pos hnow]
          exact List.mem_singleton.2 rfl
        · right
          refine ⟨⟨j, by push_cast; ring⟩, hqd, hnow⟩
    · rw [tickLoop, dif_neg hlt]
      simp only [List.not_mem_nil, false_iff]
      rintro ⟨⟨k, rfl⟩, hqd, -⟩
      have hk : (0 : ℚ) ≤ (k : ℚ) * delay :=
        mul_nonneg (Nat.cast_nonneg k) (le_of_lt hd)
      exact hlt (by linarith)

/-- C9: the tick generator always yields the immediate tick first (even when
the deadline already elapsed), and a real tick is yielded exactly when it
lies on the schedule anchored at the anchor instant (`start + k·delay`,
`k ≥ 1`), is before the deadline `start + maxwait` computed from that same
anchor (not from the invocation instant `now`), and is not already past. -/
theorem c9_ticks_anchored (p : TimingParams) (hd : 0 < p.delay) (now start : ℚ) :
    (p.ticks hd now start).head? = some ⊥ ∧
    ∀ q : ℚ, ((q : WithBot ℚ) ∈ p.ticks hd now start ↔
      ((∃ k : ℕ, q = start + ((k : ℚ) + 1) * p.delay) ∧
        q < start + p.maxwait.getD 0 ∧ now ≤ q)) := by
  refine ⟨rfl, fun q => ?_⟩
  unfold TimingParams.ticks
  rw [List.mem_cons]
  have hbot : ((q : WithBot ℚ)) ≠ ⊥ := WithBot.coe_ne_bot
  rw [List.mem_map_of_injective WithBot.coe_injective]
  rw [mem_tickLoop hd now (start + p.maxwait.getD 0)
    ((⌈((start + p.maxwait.getD 0) - (start + p.delay)) / p.delay⌉).toNat)
    (start + p.delay) (le_refl _) q]
  constructor
  · rintro (hq | ⟨⟨k, rfl⟩, hqd, hnow⟩)
    · exact absurd hq hbot
    · exact ⟨⟨k, by push_cast; ring⟩, hqd, hnow⟩
  · rintro ⟨⟨k, rfl⟩, hqd, hnow⟩
    exact Or.inr ⟨⟨k, by push_cast; ring⟩, hqd, hnow⟩

/-- Witness for C9: interval 1, maxwait 0, invoked at `now = 5` with anchor
`start = 0` — the deadline has long elapsed, yet the immediate tick is
yielded. -/
theorem c9_ticks_anchored_witness :
    0 < (1 : ℚ) ∧
    ((TimingParams.mk 1 (some 0)).ticks (by norm_num) 5 0).head? = some ⊥ := by
  exact ⟨by norm_num, (c9_ticks_anchored ⟨1, some 0⟩ (by norm_num) 5 0).1⟩

/-! ## Control-socket wire protocol (src/topotato/frr/core.py, vtysh_async)

Byte strings are lists of naturals.  `vtysh_async` prepares its command
list in one of two ways: a `str` argument is split into lines, each line
whitespace-stripped, empty results discarded; a `list` argument is copied
verbatim.  Each command is sent as its UTF-8 bytes plus one NUL.  The
response is accumulated from `recv` chunks until bytes `-4..-2` of the
buffer are all NUL (`cur_out[-4:-1] == b"\x00\x00\x00"`); the return code
is the final byte, the text the bytes before the 4-byte suffix with CRLF
normalized to LF.
-/

/-- ASCII whitespace, the relevant subset of what Python `str.strip()`
removes. -/
def pySpace (b : ℕ) : Bool :=
  b == 32 || b == 9 || b == 10 || b == 11 || b == 12 || b == 13

/-- Python `str.strip()` on a byte string: drop leading and trailing
whitespace. -/
def stripBytes (l : List ℕ) : List ℕ :=
  ((l.dropWhile pySpace).reverse.dropWhile pySpace).reverse

/-- Frames written for a `str` command argument: lines are stripped, empty
lines dropped, each command sent as its bytes plus one NUL
(`cmd.encode("UTF-8") + b"\0"`). -/
def sentBytesStr (lines : List (List ℕ)) : List (List ℕ) :=
  ((lines.map stripBytes).filter (fun c => !c.isEmpty)).map (fun c => c ++ [0])

/-- Frames written for a `list` command argument: `cmds = cmds[:]` copies
the list without stripping, then each command is sent as its bytes plus one
NUL. -/
def sentBytesList (cmds : List (List ℕ)) : List (List ℕ) :=
  cmds.map (fun c => c ++ [0])

/-- The loop guard `cur_out[-4:-1] == b"\x00\x00\x00"`: at least 4 bytes
accumulated and the three bytes before the last one are NUL. -/
def vty_done (cur : List ℕ) : Bool :=
  decide (4 ≤ cur.length) && ((cur.drop (cur.length - 4)).take 3 == [0, 0, 0])

/-- The receive loop: keep appending chunks (`sock_recv` results) to the
buffer until `vty_done`; `none` models a stream that ends before the
terminator arrives (the coroutine would stay blocked in `recv`). -/
def vty_read : List ℕ → List (List ℕ) → Option (List ℕ)
  | cur, chunks =>
    if vty_done cur then some cur
    else
      match chunks with
      | [] => none
      | c :: cs => vty_read (cur ++ c) cs

/-- `retcode = cur_out[-1]`. -/
def vty_retcode (cur : List ℕ) : ℕ := cur.getLastD 0

/-- `raw = cur_out[:-4]`. -/
def vty_raw (cur : List ℕ) : List ℕ := cur.take (cur.length - 4)

/-- `.replace("\r\n", "\n")` at the byte level (left-to-right,
non-overlapping, exactly Python `str.replace` for this pattern). -/
def crlf_to_lf : List ℕ → List ℕ
  | 13 :: 10 :: rest => 10 :: crlf_to_lf rest
  | b :: rest => b :: crlf_to_lf rest
  | [] => []

/-- The `(retcode, text)` pair extracted from a completed response buffer;
the text is modelled as its UTF-8 byte sequence. -/
def vty_parse (cur : List ℕ) : ℕ × List ℕ :=
  (vty_retcode cur, crlf_to_lf (vty_raw cur))

theorem vty_read_done {cur : List ℕ} {chunks : List (List ℕ)} {out : List ℕ}
    (h : vty_read cur chunks = some out) : vty_done out = true := by
  induction chunks generalizing cur with
  | nil =>
    rw [vty_read] at h
    by_cases hc : vty_done cur
    · rw [if_pos hc] at h
      cases h
      exact hc
    · rw [if_neg hc] at h
      cases h
  | cons c cs ih =>
    rw [vty_read] at h
    by_cases hc : vty_done cur
    · rw [if_pos hc] at h
      cases h
      exact hc
    · rw [if_neg hc] at h
      exact ih h

theorem vty_read_of_done {cur : List ℕ} (chunks : List (List ℕ))
    (h : vty_done cur = true) : vty_read cur chunks = some cur := by
  cases chunks <;> rw [vty_read, if_pos h]

theorem vty_read_cons {cur : List ℕ} (c : List ℕ) (cs : List (List ℕ))
    (h : vty_done cur = false) : vty_read cur (c :: cs) = vty_read (cur ++ c) cs := by
  rw [vty_read]
  simp [h]

theorem vty_done_concat_four_nul (body : List ℕ) :
    vty_done (body ++ [0, 0, 0, 0]) = true := by
  have hlen : (body ++ [0, 0, 0, 0]).length = body.length + 4 := by simp
  have hidx : body.length + 4 - 4 = body.length := by omega
  simp only [vty_done, Bool.and_eq_true, decide_eq_true_eq, beq_iff_eq]
  refine ⟨by rw [hlen]; omega, ?_⟩
  rw [hlen, hidx, List.drop_left]
  rfl

theorem vty_done_nil : vty_done [] = false := rfl

/-- C3 counterexample: a command passed to `vtysh_async` as an element of a
pre-split command list is sent verbatim — `cmds = cmds[:]` does not strip —
so for the command `" x "` the bytes written are `" x \0"`, not the
whitespace-stripped `"x\0"` the claim requires. -/
theorem c3_counterexample :
    sentBytesList [[32, 120, 32]] = [[32, 120, 32, 0]] ∧
    [[32, 120, 32, 0]] ≠ [stripBytes [32, 120, 32] ++ [0]] := by
  decide

/-- C3 (amended): commands obtained from a `str` argument are sent as their
whitespace-stripped text plus one NUL byte (empty lines dropped); commands
passed as a pre-split list are sent verbatim plus one NUL byte.  The
response is accumulated until the trailing four bytes of the buffer are
`00 00 00 rc`; the returned code is the final byte and the text is the
bytes before the 4-byte suffix with CRLF normalized — in particular a
response ending in four NUL bytes yields return code 0 and the text before
the suffix. -/
theorem c3_wire_protocol_amended :
    (∀ lines : List (List ℕ), ∀ c ∈ sentBytesStr lines,
      ∃ l ∈ lines, c = stripBytes l ++ [0] ∧ stripBytes l ≠ []) ∧
    (∀ cmds : List (List ℕ), ∀ c ∈ sentBytesList cmds, ∃ l ∈ cmds, c = l ++ [0]) ∧
    (∀ (chunks : List (List ℕ)) (cur : List ℕ), vty_read [] chunks = some cur →
      4 ≤ cur.length ∧ (cur.drop (cur.length - 4)).take 3 = [0, 0, 0] ∧
      vty_parse cur = (cur.getLastD 0, crlf_to_lf (cur.take (cur.length - 4)))) ∧
    (∀ body : List ℕ,
      vty_read [] [body ++ [0, 0, 0, 0]] = some (body ++ [0, 0, 0, 0]) ∧
      vty_parse (body ++ [0, 0, 0, 0]) = (0, crlf_to_lf body)) := by
  refine ⟨?_, ?_, ?_, ?_⟩
  · intro lines c hc
    obtain ⟨c0, hc0, rfl⟩ := List.mem_map.1 hc
    obtain ⟨hc1, hc2⟩ := List.mem_filter.1 hc0
    obtain ⟨l, hl, rfl⟩ := List.mem_map.1 hc1
    refine ⟨l, hl, rfl, fun hnil => ?_⟩
    rw [hnil] at hc2
    simp at hc2
  · intro cmds c hc
    obtain ⟨l, hl, rfl⟩ := List.mem_map.1 hc
    exact ⟨l, hl, rfl⟩
  · intro chunks cur h
    have hdone := vty_read_done h
    simp only [vty_done, Bool.and_eq_true, decide_eq_true_eq, beq_iff_eq] at hdone
    exact ⟨hdone.1, hdone.2, rfl⟩
  · intro body
    have hdone := vty_done_concat_four_nul body
    have hlen : (body ++ [0, 0, 0, 0]).length = body.length + 4 := by simp
    have hidx : body.length + 4 - 4 = body.length := by omega
    refine ⟨?_, ?_⟩
    · rw [vty_read_cons _ _ vty_done_nil, List.nil_append, vty_read_of_done _ hdone]
    · have hret : vty_retcode (body ++ [0, 0, 0, 0]) = 0 := by
        have : body ++ [0, 0, 0, 0] = (body ++ [0, 0, 0]) ++ [0] := by simp
        rw [vty_retcode, this, List.getLastD_concat]
      have hraw : vty_raw (body ++ [0, 0, 0, 0]) = body := by
        rw [vty_raw, hlen, hidx, List.take_left]
      rw [vty_parse, hret, hraw]

/-- Witness for the amended C3: the string-path frame for the line `" x"`
is the stripped text plus NUL, and a response `"ok" ++ 4 NULs` completes
with return code 0 and text `"ok"`. -/
theorem c3_wire_protocol_amended_witness :
    ([120, 0] ∈ sentBytesStr [[32, 120]] ∧
      ∃ l ∈ [[32, 120]], [120, 0] = stripBytes l ++ [0] ∧ stripBytes l ≠ []) ∧
    (vty_read [] [[111, 107] ++ [0, 0, 0, 0]] = some ([111, 107] ++ [0, 0, 0, 0]) ∧
      vty_parse ([111, 107] ++ [0, 0, 0, 0]) = (0, crlf_to_lf [111, 107])) := by
  exact ⟨⟨by decide, c3_wire_protocol_amended.1 [[32, 120]] [120, 0] (by decide)⟩,
    c3_wire_protocol_amended.2.2.2 [111, 107]⟩

/-! ## Association lists modelling Python dicts

CPython dicts keep insertion order; assignment to an existing key replaces
the value in place, `del` removes the single entry, and iteration sees each
key once.  We model them as association lists whose key column is
duplicate-free, with `List.lookup` as subscripting.
-/

section AssocList

variable {κ ν : Type} [BEq κ] [LawfulBEq κ]

/-- The key column of a dict. -/
def alKeys (l : List (κ × ν)) : List κ := l.map Prod.fst

/-- Dict assignment `d[k] = v`: replace in place, or append a new entry. -/
def alInsert (k : κ) (v : ν) : List (κ × ν) → List (κ × ν)
  | [] => [(k, v)]
  | e :: rest => if e.1 == k then (e.1, v) :: rest else e :: alInsert k v rest

theorem lookup_nil (k : κ) : List.lookup k ([] : List (κ × ν)) = none := rfl

theorem lookup_cons (k : κ) (e : κ × ν) (l : List (κ × ν)) :
    List.lookup k (e :: l) = if k == e.1 then some e.2 else List.lookup k l := by
  rcases e with ⟨k0, v0⟩
  rw [List.lookup]
  by_cases h : k == k0
  · rw [if_pos h]
    rw [h]
  · rw [if_neg h]
    rcases hb : (k == k0) with - | -
    · rfl
    · exact absurd hb h

theorem lookup_alInsert (k : κ) (v : ν) (l : List (κ × ν)) :
    List.lookup k (alInsert k v l) = some v := by
  induction l with
  | nil => simp [alInsert, lookup_cons]
  | cons e rest ih =>
    by_cases h : e.1 = k
    · rw [alInsert, if_pos (by simpa using h), lookup_cons,
        if_pos (by simp [beq_iff_eq, h])]
    · have hke : ¬ k = e.1 := fun hk => h hk.symm
      rw [alInsert, if_neg (by simpa using h), lookup_cons,
        if_neg (by simp [beq_iff_eq, hke]), ih]

theorem lookup_alInsert_ne (k k' : κ) (v : ν) (l : List (κ × ν)) (h : ¬ k' = k) :
    List.lookup k' (alInsert k v l) = List.lookup k' l := by
  induction l with
  | nil => simp [alInsert, lookup_cons, beq_iff_eq, h]
  | cons e rest ih =>
    by_cases he : e.1 = k
    · have hne : ¬ k' = e.1 := fun hk => h (hk.trans he)
      rw [alInsert, if_pos (by simpa using he), lookup_cons, lookup_cons,
        if_neg (by simp [beq_iff_eq, hne]), if_neg (by simp [beq_iff_eq, hne])]
    · rw [alInsert, if_neg (by simpa using he), lookup_cons, lookup_cons, ih]

theorem alKeys_alInsert (k : κ) (v : ν) (l : List (κ × ν)) :
    alKeys (alInsert k v l) = if k ∈ alKeys l then alKeys l else alKeys l ++ [k] := by
  induction l with
  | nil => simp [alInsert, alKeys]
  | cons e rest ih =>
    by_cases he : e.1 = k
    · rw [alInsert, if_pos (by simpa using he)]
      simp [alKeys, he]
    · have hke : ¬ k = e.1 := fun hk => he hk.symm
      rw [alInsert, if_neg (by simpa using he)]
      simp only [alKeys, List.map_cons] at ih ⊢
      rw [ih]
      by_cases hk : k ∈ rest.map Prod.fst
      · rw [if_pos hk, if_pos (by simp [hk])]
      · rw [if_neg hk, if_neg (by simp [hk, hke])]
        rfl

theorem nodup_alKeys_alInsert (k : κ) (v : ν) {l : List (κ × ν)}
    (h : (alKeys l).Nodup) : (alKeys (alInsert k v l)).Nodup := by
  rw [alKeys_alInsert]
  by_cases hk : k ∈ alKeys l
  · rwa [if_pos hk]
  · rw [if_neg hk]
    simpa [List.nodup_append] using ⟨h, hk⟩

theorem lookup_eq_none_of_not_mem {k : κ} {l : List (κ × ν)}
    (h : k ∉ alKeys l) : List.lookup k l = none := by
  induction l with
  | nil => rfl
  | cons e rest ih =>
    simp only [alKeys, List.map_cons, List.mem_cons, not_or] at h
    rw [lookup_cons, if_neg (by simpa using h.1), ih (by simpa [alKeys] using h.2)]

theorem lookup_eraseP_self {l : List (κ × ν)} (k : κ)
    (hn : (alKeys l).Nodup) :
    List.lookup k (l.eraseP (fun e => e.1 == k)) = none := by
  induction l with
  | nil => rfl
  | cons e rest ih =>
    simp only [alKeys, List.map_cons, List.nodup_cons] at hn
    by_cases he : e.1 = k
    · rw [List.eraseP_cons_of_pos (by simpa using he)]
      exact lookup_eq_none_of_not_mem (by simpa [alKeys, he] using hn.1)
    · have hke : ¬ k = e.1 := fun hk => he hk.symm
      rw [List.eraseP_cons_of_neg (by simpa using he), lookup_cons,
        if_neg (by simp [beq_iff_eq, hke])]
      exact ih hn.2

theorem lookup_eraseP_ne {l : List (κ × ν)} (k k' : κ) (h : ¬ k' = k) :
    List.lookup k' (l.eraseP (fun e => e.1 == k)) = List.lookup k' l := by
  induction l with
  | nil => rfl
  | cons e rest ih =>
    by_cases he : e.1 = k
    · have hne : ¬ k' = e.1 := fun hk => h (hk.trans he)
      rw [List.eraseP_cons_of_pos (by simpa using he), lookup_cons,
        if_neg (by simp [beq_iff_eq, hne])]
    · rw [List.eraseP_cons_of_neg (by simpa using he), lookup_cons, lookup_cons, ih]

theorem nodup_alKeys_eraseP (p : κ × ν → Bool) {l : List (κ × ν)}
    (h : (alKeys l).Nodup) : (alKeys (l.eraseP p)).Nodup :=
  ((List.eraseP_sublist l).map Prod.fst).nodup h

theorem nodup_alKeys_filter (p : κ × ν → Bool) {l : List (κ × ν)}
    (h : (alKeys l).Nodup) : (alKeys (l.filter p)).Nodup :=
  ((List.filter_sublist l).map Prod.fst).nodup h

theorem lookup_filter_keys (p : κ → Bool) (k : κ) (l : List (κ × ν)) :
    List.lookup k (l.filter (fun e => p e.1)) =
      if p k then List.lookup k l else none := by
  induction l with
  | nil => simp [lookup_nil]
  | cons e rest ih =>
    by_cases hp : p e.1
    · rw [List.filter_cons_of_pos (by simpa using hp), lookup_cons, lookup_cons]
      by_cases hk : k == e.1
      · rw [if_pos hk, if_pos (by rw [eq_of_beq hk]; exact hp), if_pos hk]
      · rw [if_neg hk, if_neg hk, ih]
    · rw [List.filter_cons_of_neg (by simpa using hp), lookup_cons, ih]
      by_cases hk : k == e.1
      · rw [if_neg (by rw [eq_of_beq hk]; simpa using hp),
          if_neg (by rw [eq_of_beq hk]; simpa using hp)]
      · rw [if_neg hk]

end AssocList

/-! ## Daemon lifecycle (src/topotato/frr/core.py)

`stop_daemon` returns early when the daemon is not in `self.pids`,
otherwise deletes the entry, sends SIGTERM (an already-gone pid raises
`TopotatoDaemonCrash` here), then polls `for i in range(0, 5)` sleeping
`i * 0.1` seconds and resending SIGTERM, returning as soon as the process
is observed gone (`ProcessLookupError`); exhaustion raises
`TopotatoDaemonStopFail`.

The OS is modelled by an oracle `gone : ℕ → Bool`: `gone n` tells whether
the n-th `os.kill` of this call (0 = the initial one) finds the process
already gone.
-/

/-- Result of a `stop_daemon` call: normal return, or one of the two
exceptions it can raise (both carrying daemon and router names). -/
inductive StopResult where
  | ok : StopResult
  | crash (daemon router : String) : StopResult
  | stopFail (daemon router : String) : StopResult
deriving DecidableEq, Repr

/-- The `for i in range(0, 5)` polling loop of `stop_daemon` over the
remaining indices: sleep `i * 0.1`, resend SIGTERM, return on
`ProcessLookupError`.  Returns the result, the sleeps performed (in
seconds, in order) and the number of SIGTERMs sent. -/
def stopPoll (gone : ℕ → Bool) (daemon router : String) :
    List ℕ → StopResult × List ℚ × ℕ
  | [] => (.stopFail daemon router, [], 0)
  | i :: rest =>
    if gone (i + 1) then (.ok, [(i : ℚ) / 10], 1)
    else
      let r := stopPoll gone daemon router rest
      (r.1, (i : ℚ) / 10 :: r.2.1, r.2.2 + 1)

/-- `FRRRouterNS.stop_daemon`: early return when absent from `pids`;
otherwise delete the entry, send the initial SIGTERM (already-gone raises
`TopotatoDaemonCrash`), then run the polling loop.  Returns the new `pids`,
the result, the sleeps performed and the number of SIGTERMs sent. -/
def stop_daemon (pids : List (String × ℕ)) (daemon router : String)
    (gone : ℕ → Bool) : List (String × ℕ) × StopResult × List ℚ × ℕ :=
  match List.lookup daemon pids with
  | none => (pids, .ok, [], 0)
  | some _ =>
    let pids1 := pids.eraseP (fun e => e.1 == daemon)
    if gone 0 then (pids1, .crash daemon router, [], 1)
    else
      let r := stopPoll gone daemon router [0, 1, 2, 3, 4]
      (pids1, r.1, r.2.1, r.2.2 + 1)

/-- Oracle for a process that is already gone at every SIGTERM. -/
def goneAlways : ℕ → Bool := fun _ => true

/-- Oracle for a process that never exits. -/
def goneNever : ℕ → Bool := fun _ => false

/-- C4 counterexample: with the daemon recorded in `pids` and its process
already gone when `stop_daemon` sends the initial SIGTERM, the call raises
`TopotatoDaemonCrash` instead of returning successfully as the claim
states. -/
theorem c4_counterexample :
    (stop_daemon [("zebra", 42)] "zebra" "r1" goneAlways).2.1 =
      StopResult.crash "zebra" "r1" ∧
    StopResult.crash "zebra" "r1" ≠ StopResult.ok := by
  decide

/-- C4 (amended): a recorded pid that is already gone at the initial
SIGTERM makes `stop_daemon` raise `TopotatoDaemonCrash` (the pids entry
having been removed first); only a process that disappears during the
subsequent polling is treated as success. -/
theorem c4_stop_gone_raises_crash (pids : List (String × ℕ))
    (daemon router : String) (gone : ℕ → Bool)
    (h : (List.lookup daemon pids).isSome) :
    (gone 0 = true →
      stop_daemon pids daemon router gone =
        (pids.eraseP (fun e => e.1 == daemon), .crash daemon router, [], 1)) ∧
    (gone 0 = false → gone 1 = true →
      stop_daemon pids daemon router gone =
        (pids.eraseP (fun e => e.1 == daemon), .ok, [0], 2)) := by
  obtain ⟨p, hp⟩ := Option.isSome_iff_exists.1 h
  constructor
  · intro h0
    simp [stop_daemon, hp, h0]
  · intro h0 h1
    simp [stop_daemon, stopPoll, hp, h0, h1]

/-- Witness for the amended C4: daemon `zebra` recorded with pid 42, the
process gone at the very first SIGTERM — the result is
`TopotatoDaemonCrash`. -/
theorem c4_stop_gone_raises_crash_witness :
    (List.lookup "zebra" [("zebra", 42)]).isSome = true ∧
    stop_daemon [("zebra", 42)] "zebra" "r1" goneAlways =
      ([("zebra", 42)].eraseP (fun e => e.1 == "zebra"),
        .crash "zebra" "r1", [], 1) := by
  exact ⟨by decide,
    (c4_stop_gone_raises_crash [("zebra", 42)] "zebra" "r1" goneAlways
      (by decide)).1 rfl⟩

/-- C6: with the daemon recorded and the process observed gone at none of
the six SIGTERMs, `stop_daemon` polls five times with escalating sleeps
0, 0.1, 0.2, 0.3, 0.4 s and raises `TopotatoDaemonStopFail` naming daemon
and router; and it returns successfully at the first poll whose SIGTERM
finds the process gone. -/
theorem c6_stop_escalating_retries (pids : List (String × ℕ))
    (daemon router : String) (gone : ℕ → Bool)
    (h : (List.lookup daemon pids).isSome) (h0 : gone 0 = false) :
    ((∀ i, 1 ≤ i → i ≤ 5 → gone i = false) →
      stop_daemon pids daemon router gone =
        (pids.eraseP (fun e => e.1 == daemon), .stopFail daemon router,
          [0, 1/10, 2/10, 3/10, 4/10], 6)) ∧
    (∀ j, j < 5 → (∀ i, 1 ≤ i → i ≤ j → gone i = false) → gone (j + 1) = true →
      (stop_daemon pids daemon router gone).2.1 = .ok ∧
      (stop_daemon pids daemon router gone).2.2.1 =
        (List.range (j + 1)).map (fun i => (i : ℚ) / 10)) := by
  obtain ⟨p, hp⟩ := Option.isSome_iff_exists.1 h
  constructor
  · intro hall
    have g1 := hall 1 (by norm_num) (by norm_num)
    have g2 := hall 2 (by norm_num) (by norm_num)
    have g3 := hall 3 (by norm_num) (by norm_num)
    have g4 := hall 4 (by norm_num) (by norm_num)
    have g5 := hall 5 (by norm_num) (by norm_num)
    simp [stop_daemon, stopPoll, hp, h0, g1, g2, g3, g4, g5]
  · intro j hj hprev hhit
    interval_cases j
    · refine ⟨?_, ?_⟩ <;>
        simp [stop_daemon, stopPoll, hp, h0, hhit, List.range_succ]
    · have g1 := hprev 1 (by norm_num) (by norm_num)
      refine ⟨?_, ?_⟩ <;>
        simp [stop_daemon, stopPoll, hp, h0, g1, hhit, List.range_succ] <;>
        norm_num
    · have g1 := hprev 1 (by norm_num) (by norm_num)
      have g2 := hprev 2 (by norm_num) (by norm_num)
      refine ⟨?_, ?_⟩ <;>
        simp [stop_daemon, stopPoll, hp, h0, g1, g2, hhit, List.range_succ] <;>
        norm_num
    · have g1 := hprev 1 (by norm_num) (by norm_num)
      have g2 := hprev 2 (by norm_num) (by norm_num)
      have g3 := hprev 3 (by norm_num) (by norm_num)
      refine ⟨?_, ?_⟩ <;>
        simp [stop_daemon, stopPoll, hp, h0, g1, g2, g3, hhit, List.range_succ] <;>
        norm_num
    · have g1 := hprev 1 (by norm_num) (by norm_num)
      have g2 := hprev 2 (by norm_num) (by norm_num)
      have g3 := hprev 3 (by norm_num) (by norm_num)
      have g4 := hprev 4 (by norm_num) (by norm_num)
      refine ⟨?_, ?_⟩ <;>
        simp [stop_daemon, stopPoll, hp, h0, g1, g2, g3, g4, hhit, List.range_succ] <;>
        norm_num

/-- Witness for C6: daemon `zebra` with pid 42 and a process that never
exits — five polls with sleeps 0, 0.1, 0.2, 0.3, 0.4 s, then
`TopotatoDaemonStopFail`. -/
theorem c6_stop_escalating_retries_witness :
    stop_daemon [("zebra", 42)] "zebra" "r1" goneNever =
      ([("zebra", 42)].eraseP (fun e => e.1 == "zebra"),
        .stopFail "zebra" "r1", [0, 1/10, 2/10, 3/10, 4/10], 6) := by
  exact (c6_stop_escalating_retries [("zebra", 42)] "zebra" "r1" goneNever
    (by decide) rfl).1 (fun i h1 h5 => rfl)

/-- C10: `stop_daemon` for a daemon absent from `pids` returns immediately
with no sleeps, no SIGTERM sent, no exception and `pids` untouched; and
since a present daemon's entry is deleted before any signalling, a second
`stop_daemon` call in a row for the same daemon always takes that early
return, hence never raises. -/
theorem c10_stop_absent_noop (pids : List (String × ℕ))
    (daemon router : String) (gone gone2 : ℕ → Bool)
    (hn : (alKeys pids).Nodup) :
    (List.lookup daemon pids = none →
      stop_daemon pids daemon router gone = (pids, .ok, [], 0)) ∧
    List.lookup daemon (stop_daemon pids daemon router gone).1 = none ∧
    stop_daemon (stop_daemon pids daemon router gone).1 daemon router gone2 =
      ((stop_daemon pids daemon router gone).1, .ok, [], 0) := by
  have habsent : ∀ l : List (String × ℕ), List.lookup daemon l = none →
      stop_daemon l daemon router gone2 = (l, .ok, [], 0) := by
    intro l hl
    simp [stop_daemon, hl]
  have hfst : List.lookup daemon (stop_daemon pids daemon router gone).1 = none := by
    rcases hl : List.lookup daemon pids with - | p
    · simp [stop_daemon, hl]
    · have hpids1 : (stop_daemon pids daemon router gone).1 =
          pids.eraseP (fun e => e.1 == daemon) := by
        by_cases h0 : gone 0 <;> simp [stop_daemon, hl, h0]
      rw [hpids1]
      exact lookup_eraseP_self daemon hn
  refine ⟨?_, hfst, habsent _ hfst⟩
  intro hl
  simp [stop_daemon, hl]

/-- Witness for C10: `zebra` is not in an empty pids table — the call is a
no-op, and stopping twice in a row does not raise either. -/
theorem c10_stop_absent_noop_witness :
    (([] : List (String × ℕ)).map Prod.fst).Nodup ∧
    (List.lookup "zebra" ([] : List (String × ℕ)) = none →
      stop_daemon [] "zebra" "r1" goneNever = ([], .ok, [], 0)) ∧
    List.lookup "zebra" (stop_daemon [] "zebra" "r1" goneNever).1 = none ∧
    stop_daemon (stop_daemon [] "zebra" "r1" goneNever).1 "zebra" "r1" goneAlways =
      ((stop_daemon [] "zebra" "r1" goneNever).1, .ok, [], 0) := by
  exact ⟨by decide, c10_stop_absent_noop [] "zebra" "r1" goneNever goneAlways (by decide)⟩

/-! ## start_daemon connect retry (src/topotato/frr/core.py)

After spawning the daemon, `start_daemon` runs
`for retry in range(30, -1, -1)` (31 iterations): each iteration attempts
`vtysh_polled`; `ConnectionRefusedError` and `FileNotFoundError` are
retryable — with `retry` non-zero it sleeps 0.1 s and continues, with
`retry == 0` it raises `TopotatoDaemonStartFail(daemon, router,
cmdline=shlex.join(cmdline))`.  The OS is modelled by an oracle
`env : ℕ → ConnectOutcome` giving the outcome of the n-th attempt.
-/

/-- Outcome of one connect attempt (`vtysh_polled`). -/
inductive ConnectOutcome where
  | ok (pid : ℕ) : ConnectOutcome
  | refused : ConnectOutcome
  | notFound : ConnectOutcome
deriving DecidableEq, Repr

/-- The data carried by `TopotatoDaemonStartFail(daemon=..., router=...,
cmdline=shlex.join(cmdline))`. -/
structure DaemonStartFail where
  daemon : String
  router : String
  cmdline : String
deriving DecidableEq, Repr

/-- The connect retry loop of `start_daemon`, at loop counter value
`retry`, about to make attempt number `attempt`.  Returns the result (pid
or raised failure), the number of connect attempts made, and the sleeps
performed (each `time.sleep(0.1)`). -/
def start_connect (env : ℕ → ConnectOutcome) (fail : DaemonStartFail) :
    ℕ → ℕ → Except DaemonStartFail ℕ × ℕ × List ℚ
  | attempt, retry =>
    match env attempt with
    | .ok pid => (.ok pid, 1, [])
    | .refused | .notFound =>
      match retry with
      | 0 => (.error fail, 1, [])
      | r + 1 =>
        let rest := start_connect env fail (attempt + 1) r
        (rest.1, rest.2.1 + 1, (1 : ℚ) / 10 :: rest.2.2)

/-- The whole retry phase: 31 attempts starting at `retry = 30`. -/
def start_connect_phase (env : ℕ → ConnectOutcome) (fail : DaemonStartFail) :
    Except DaemonStartFail ℕ × ℕ × List ℚ :=
  start_connect env fail 0 30

theorem start_connect_attempts_le (env : ℕ → ConnectOutcome)
    (fail : DaemonStartFail) :
    ∀ retry attempt, (start_connect env fail attempt retry).2.1 ≤ retry + 1 := by
  intro retry
  induction retry with
  | zero =>
    intro attempt
    rcases he : env attempt with p | - | - <;> simp [start_connect, he]
  | succ r ih =>
    intro attempt
    rcases he : env attempt with p | - | - <;>
      simp [start_connect, he]
    · have := ih (attempt + 1)
      omega
    · have := ih (attempt + 1)
      omega

theorem start_connect_all_fail (env : ℕ → ConnectOutcome)
    (fail : DaemonStartFail)
    (h : ∀ n, env n = .refused ∨ env n = .notFound) :
    ∀ retry attempt, start_connect env fail attempt retry =
      (.error fail, retry + 1, List.replicate retry ((1 : ℚ) / 10)) := by
  intro retry
  induction retry with
  | zero =>
    intro attempt
    rcases h attempt with he | he <;> simp [start_connect, he]
  | succ r ih =>
    intro attempt
    rcases h attempt with he | he <;>
      simp [start_connect, he, ih (attempt + 1), List.replicate_succ]

/-- C5: when the control socket never becomes connectable (every attempt
ends in connection-refused or file-not-found), the retry loop makes
exactly 31 connect attempts (the initial one plus 30 retries), sleeps
0.1 s between consecutive attempts (30 sleeps), and raises
`TopotatoDaemonStartFail` carrying the exact command line; for any
environment at all the loop makes at most 31 attempts, so it always
terminates. -/
theorem c5_start_retry_bound (env : ℕ → ConnectOutcome)
    (fail : DaemonStartFail) :
    (start_connect_phase env fail).2.1 ≤ 31 ∧
    ((∀ n, env n = .refused ∨ env n = .notFound) →
      start_connect_phase env fail =
        (.error fail, 31, List.replicate 30 ((1 : ℚ) / 10)) ∧
      (start_connect_phase env fail).1 = .error
        { daemon := fail.daemon, router := fail.router, cmdline := fail.cmdline }) := by
  refine ⟨start_connect_attempts_le env fail 30 0, fun h => ?_⟩
  have := start_connect_all_fail env fail h 30 0
  rw [start_connect_phase, this]
  exact ⟨rfl, rfl⟩

/-- Oracle for a control socket that never appears. -/
def envAlwaysRefused : ℕ → ConnectOutcome := fun _ => .refused

/-- Witness for C5: a never-connectable daemon fails after 31 attempts and
30 sleeps, with the failure carrying the command line it was started
with. -/
theorem c5_start_retry_bound_witness :
    start_connect_phase envAlwaysRefused ⟨"zebra", "r1", "zebra -d"⟩ =
      (.error ⟨"zebra", "r1", "zebra -d"⟩, 31, List.replicate 30 ((1 : ℚ) / 10)) := by
  exact ((c5_start_retry_bound envAlwaysRefused ⟨"zebra", "r1", "zebra -d"⟩).2
    (fun n => Or.inl rfl)).1

/-! ## The `pids` table invariant (C7)

`start_daemon` records `self.pids[daemon] = pid` only after the spawn and
connect phases succeeded; any failure raises before that line.
`stop_daemon` deletes the entry before any signalling, in every outcome.
`restart_daemon` is `stop_daemon` then `start_daemon`, the second step
skipped when the first raised.  `end_prep` SIGTERMs every recorded pid and
deletes exactly the entries whose kill raised `ProcessLookupError`
(process observed dead).
-/

/-- Outcome of a `start_daemon` call: either the connect loop succeeded and
`pids[daemon] = pid` was recorded, or it raised beforehand (spawn failure
or connect-retry exhaustion). -/
inductive StartOutcome where
  | ok (pid : ℕ) : StartOutcome
  | fail : StartOutcome
deriving DecidableEq, Repr

/-- One lifecycle call on an `FRRRouterNS`, with the OS behaviour carried
as oracles (`gone` as for `stop_daemon`; `dead d` tells whether daemon
`d`'s process is found dead by `end_prep`'s SIGTERM). -/
inductive RtrEvent where
  | start (daemon : String) (o : StartOutcome) : RtrEvent
  | stop (daemon router : String) (gone : ℕ → Bool) : RtrEvent
  | restart (daemon router : String) (gone : ℕ → Bool) (o : StartOutcome) : RtrEvent
  | endPrep (dead : String → Bool) : RtrEvent

/-- Effect of one lifecycle call on `self.pids`. -/
def rtrStep (pids : List (String × ℕ)) : RtrEvent → List (String × ℕ)
  | .start d o =>
    match o with
    | .ok pid => alInsert d pid pids
    | .fail => pids
  | .stop d r gone => (stop_daemon pids d r gone).1
  | .restart d r gone o =>
    let s := stop_daemon pids d r gone
    if s.2.1 = .ok then
      match o with
      | .ok pid => alInsert d pid s.1
      | .fail => s.1
    else s.1
  | .endPrep dead => pids.filter (fun e => !(dead e.1))

/-- The `pids` table after a sequence of lifecycle calls, starting empty. -/
def rtrRun (evs : List RtrEvent) : List (String × ℕ) := evs.foldl rtrStep []

/-- Whether a `stop_daemon` call raises: the daemon must be present, and
either the initial SIGTERM finds the pid gone (`TopotatoDaemonCrash`) or
none of the five polling SIGTERMs does (`TopotatoDaemonStopFail`). -/
def stopRaises (present : Bool) (gone : ℕ → Bool) : Bool :=
  present && (gone 0 || (!gone 1 && !gone 2 && !gone 3 && !gone 4 && !gone 5))

/-- Modelled from the spec: "`pids` reflects exactly the daemons currently
believed alive."  A daemon is believed alive with pid `p` exactly when its
most recent successful start recorded `p` and the daemon has not since been
the subject of a `stop_daemon` call nor been observed dead by `end_prep`. -/
def ghostStep (g : String → Option ℕ) : RtrEvent → String → Option ℕ
  | .start d o => fun x =>
    if x = d then
      match o with
      | .ok pid => some pid
      | .fail => g x
    else g x
  | .stop d _ _ => fun x => if x = d then none else g x
  | .restart d _ gone o => fun x =>
    if x = d then
      if stopRaises (g d).isSome gone then none
      else
        match o with
        | .ok pid => some pid
        | .fail => none
    else g x
  | .endPrep dead => fun x => if dead x then none else g x

/-- The spec-level "believed alive" map after a sequence of lifecycle
calls. -/
def believedAlive (evs : List RtrEvent) : String → Option ℕ :=
  evs.foldl ghostStep (fun _ => none)

theorem stop_daemon_pids_eq (pids : List (String × ℕ)) (d r : String)
    (gone : ℕ → Bool) :
    (stop_daemon pids d r gone).1 =
      match List.lookup d pids with
      | none => pids
      | some _ => pids.eraseP (fun e => e.1 == d) := by
  rcases hl : List.lookup d pids with - | p
  · simp [stop_daemon, hl]
  · by_cases h0 : gone 0 <;> simp [stop_daemon, hl, h0]

theorem nodup_stop_daemon (pids : List (String × ℕ)) (d r : String)
    (gone : ℕ → Bool) (hn : (alKeys pids).Nodup) :
    (alKeys (stop_daemon pids d r gone).1).Nodup := by
  rw [stop_daemon_pids_eq]
  rcases List.lookup d pids with - | p
  · exact hn
  · exact nodup_alKeys_eraseP _ hn

theorem lookup_stop_daemon (pids : List (String × ℕ)) (d r : String)
    (gone : ℕ → Bool) (x : String) (hn : (alKeys pids).Nodup) :
    List.lookup x (stop_daemon pids d r gone).1 =
      if x = d then none else List.lookup x pids := by
  rw [stop_daemon_pids_eq]
  rcases hl : List.lookup d pids with - | p
  · by_cases hx : x = d
    · subst hx
      simp [hl]
    · simp [hx]
  · by_cases hx : x = d
    · subst hx
      simp [lookup_eraseP_self x hn]
    · simp [hx, lookup_eraseP_ne d x hx]

theorem stop_daemon_ok_iff (pids : List (String × ℕ)) (d r : String)
    (gone : ℕ → Bool) :
    ((stop_daemon pids d r gone).2.1 = .ok) ↔
      stopRaises (List.lookup d pids).isSome gone = false := by
  rcases hl : List.lookup d pids with - | p
  · simp [stop_daemon, hl, stopRaises]
  · by_cases h0 : gone 0
    · simp [stop_daemon, hl, h0, stopRaises]
    · cases h1 : gone 1 <;> cases h2 : gone 2 <;> cases h3 : gone 3 <;>
        cases h4 : gone 4 <;> cases h5 : gone 5 <;>
        simp [stop_daemon, stopPoll, hl, h0, h1, h2, h3, h4, h5, stopRaises]

theorem rtrStep_sim {pids : List (String × ℕ)} {g : String → Option ℕ}
    (hn : (alKeys pids).Nodup) (hsim : ∀ x, List.lookup x pids = g x)
    (ev : RtrEvent) :
    (alKeys (rtrStep pids ev)).Nodup ∧
    ∀ x, List.lookup x (rtrStep pids ev) = ghostStep g ev x := by
  cases ev with
  | start d o =>
    cases o with
    | ok pid =>
      refine ⟨nodup_alKeys_alInsert d pid hn, fun x => ?_⟩
      by_cases hx : x = d
      · subst hx
        simp [rtrStep, ghostStep, lookup_alInsert]
      · simp [rtrStep, ghostStep, hx, lookup_alInsert_ne d x pid pids hx, hsim x]
    | fail =>
      refine ⟨hn, fun x => ?_⟩
      simp [rtrStep, ghostStep, hsim x, ite_self]
  | stop d r gone =>
    refine ⟨nodup_stop_daemon pids d r gone hn, fun x => ?_⟩
    show List.lookup x (stop_daemon pids d r gone).1 = _
    rw [lookup_stop_daemon pids d r gone x hn]
    by_cases hx : x = d <;> simp [ghostStep, hx, hsim x]
  | restart d r gone o =>
    have hok : ((stop_daemon pids d r gone).2.1 = .ok) ↔
        stopRaises (g d).isSome gone = false := by
      rw [stop_daemon_ok_iff, hsim d]
    by_cases hraise : stopRaises (g d).isSome gone
    · have hnotok : ¬ (stop_daemon pids d r gone).2.1 = .ok := by
        rw [hok, hraise]
        simp
      have hstep : rtrStep pids (.restart d r gone o) =
          (stop_daemon pids d r gone).1 := by
        simp [rtrStep, hnotok]
      refine ⟨by rw [hstep]; exact nodup_stop_daemon pids d r gone hn, fun x => ?_⟩
      rw [hstep, lookup_stop_daemon pids d r gone x hn]
      by_cases hx : x = d <;> simp [ghostStep, hx, hraise, hsim x]
    · have hok' : (stop_daemon pids d r gone).2.1 = .ok :=
        hok.mpr (by simpa using hraise)
      cases o with
      | ok pid =>
        have hstep : rtrStep pids (.restart d r gone (.ok pid)) =
            alInsert d pid (stop_daemon pids d r gone).1 := by
          simp [rtrStep, hok']
        have hnodup : (alKeys (rtrStep pids (.restart d r gone (.ok pid)))).Nodup := by
          rw [hstep]
          exact nodup_alKeys_alInsert d pid (nodup_stop_daemon pids d r gone hn)
        refine ⟨hnodup, fun x => ?_⟩
        rw [hstep]
        by_cases hx : x = d
        · subst hx
          simp [ghostStep, lookup_alInsert, hraise]
        · rw [lookup_alInsert_ne d x pid _ hx,
            lookup_stop_daemon pids d r gone x hn]
          simp [ghostStep, hx, hsim x]
      | fail =>
        have hstep : rtrStep pids (.restart d r gone .fail) =
            (stop_daemon pids d r gone).1 := by
          simp [rtrStep, hok']
        refine ⟨by rw [hstep]; exact nodup_stop_daemon pids d r gone hn, fun x => ?_⟩
        rw [hstep, lookup_stop_daemon pids d r gone x hn]
        by_cases hx : x = d <;> simp [ghostStep, hx, hraise, hsim x]
  | endPrep dead =>
    refine ⟨nodup_alKeys_filter _ hn, fun x => ?_⟩
    show List.lookup x (pids.filter fun e => !(dead e.1)) = _
    rw [lookup_filter_keys (fun k => !dead k) x pids]
    by_cases hdx : dead x <;> simp [ghostStep, hdx, hsim x]

theorem run_sim (evs : List RtrEvent) :
    ∀ (pids : List (String × ℕ)) (g : String → Option ℕ),
      (alKeys pids).Nodup → (∀ x, List.lookup x pids = g x) →
      (alKeys (evs.foldl rtrStep pids)).Nodup ∧
      ∀ x, List.lookup x (evs.foldl rtrStep pids) = (evs.foldl ghostStep g) x := by
  induction evs with
  | nil =>
    intro pids g hn hsim
    exact ⟨hn, hsim⟩
  | cons ev rest ih =>
    intro pids g hn hsim
    obtain ⟨hn', hsim'⟩ := rtrStep_sim hn hsim ev
    exact ih _ _ hn' hsim'

/-- C7: in every state reachable by a sequence of `start_daemon`,
`stop_daemon`, `restart_daemon` and `end_prep` calls, the `pids` table has
no duplicate daemon name (each name maps to at most one pid), and a name
maps to pid `p` exactly when that daemon is currently believed alive with
pid `p` — started successfully and not since stopped or observed dead. -/
theorem c7_pids_reflect_believed_alive (evs : List RtrEvent) :
    (alKeys (rtrRun evs)).Nodup ∧
    ∀ d p, List.lookup d (rtrRun evs) = some p ↔ believedAlive evs d = some p := by
  obtain ⟨hn, hsim⟩ :=
    run_sim evs [] (fun _ => none) (by simp [alKeys]) (fun x => rfl)
  exact ⟨hn, fun d p => by rw [rtrRun, hsim d, believedAlive]⟩

/-! ## FDState / FDDelta (src/topotato/leaks.py)

An `FDState` maps each live descriptor number to
`(stat.S_IFMT(st_mode), st_dev, st_ino)`.  `FDDelta` derives `opened`,
`closed` and `changed` as key-set differences, and `len` is the sum of the
three sets' sizes.
-/

theorem lookup_isSome_iff_mem_alKeys {κ ν : Type} [BEq κ] [LawfulBEq κ]
    {l : List (κ × ν)} {k : κ} : (List.lookup k l).isSome ↔ k ∈ alKeys l := by
  induction l with
  | nil => simp [lookup_nil, alKeys]
  | cons e rest ih =>
    rw [lookup_cons]
    by_cases hk : k = e.1
    · simp [alKeys, hk]
    · simp [alKeys, beq_iff_eq, hk, ih]

/-- A descriptor-table snapshot: descriptor number to
`(file-type, device, inode)`. -/
def FDState := List (ℕ × (ℕ × ℕ × ℕ))

/-- The key set of a snapshot (`set(state.keys())`). -/
def fdKeys (s : FDState) : Finset ℕ := (alKeys s).toFinset

/-- `FDDelta`: the three derived sets. -/
structure FDDelta where
  opened : Finset ℕ
  closed : Finset ℕ
  changed : Finset ℕ

/-- `FDDelta.__init__`: `opened = k2 - k1`, `closed = k1 - k2`, `changed` =
keys in both whose stored triple differs. -/
def mkFDDelta (before after : FDState) : FDDelta :=
  { opened := fdKeys after \ fdKeys before,
    closed := fdKeys before \ fdKeys after,
    changed := (fdKeys before ∩ fdKeys after).filter
      (fun fd => List.lookup fd before ≠ List.lookup fd after) }

/-- `FDDelta.__len__`: cumulative size of the constituent sets. -/
def FDDelta.len (d : FDDelta) : ℕ :=
  d.opened.card + d.closed.card + d.changed.card

/-- Modelled from the spec: the OS descriptor-table operations the claim
quantifies over — `open` fills a slot with a fresh object, `close` frees a
slot, `dup` makes the target slot refer to the source's object. -/
inductive FDOp where
  | openFd (fd : ℕ) (v : ℕ × ℕ × ℕ) : FDOp
  | closeFd (fd : ℕ) : FDOp
  | dupFd (src dst : ℕ) : FDOp

/-- Effect of one descriptor operation on a snapshot. -/
def applyFDOp (s : FDState) : FDOp → FDState
  | .openFd fd v => alInsert fd v s
  | .closeFd fd => s.eraseP (fun e => e.1 == fd)
  | .dupFd src dst =>
    match List.lookup src s with
    | some v => alInsert dst v s
    | none => s

/-- Effect of a sequence of descriptor operations. -/
def applyFDOps (s : FDState) (ops : List FDOp) : FDState := ops.foldl applyFDOp s

theorem mem_opened_iff (before after : FDState) (fd : ℕ) :
    fd ∈ (mkFDDelta before after).opened ↔
      (List.lookup fd after).isSome ∧ List.lookup fd before = none := by
  rw [mkFDDelta]
  simp only [Finset.mem_sdiff, fdKeys, List.mem_toFinset]
  rw [← lookup_isSome_iff_mem_alKeys, ← lookup_isSome_iff_mem_alKeys,
    Option.not_isSome_iff_eq_none]

theorem mem_closed_iff (before after : FDState) (fd : ℕ) :
    fd ∈ (mkFDDelta before after).closed ↔
      (List.lookup fd before).isSome ∧ List.lookup fd after = none := by
  rw [mkFDDelta]
  simp only [Finset.mem_sdiff, fdKeys, List.mem_toFinset]
  rw [← lookup_isSome_iff_mem_alKeys, ← lookup_isSome_iff_mem_alKeys,
    Option.not_isSome_iff_eq_none]

theorem mem_changed_iff (before after : FDState) (fd : ℕ) :
    fd ∈ (mkFDDelta before after).changed ↔
      ∃ v w, List.lookup fd before = some v ∧ List.lookup fd after = some w ∧
        v ≠ w := by
  rw [mkFDDelta]
  simp only [Finset.mem_filter, Finset.mem_inter, fdKeys, List.mem_toFinset]
  rw [← lookup_isSome_iff_mem_alKeys, ← lookup_isSome_iff_mem_alKeys]
  constructor
  · rintro ⟨⟨hb, ha⟩, hne⟩
    obtain ⟨v, hv⟩ := Option.isSome_iff_exists.1 hb
    obtain ⟨w, hw⟩ := Option.isSome_iff_exists.1 ha
    refine ⟨v, w, hv, hw, fun hvw => hne ?_⟩
    rw [hv, hw, hvw]
  · rintro ⟨v, w, hv, hw, hvw⟩
    refine ⟨⟨by simp [hv], by simp [hw]⟩, fun h => hvw ?_⟩
    rw [hv, hw] at h
    exact Option.some_inj.1 h

theorem fddelta_len_zero_iff (before after : FDState) :
    (mkFDDelta before after).len = 0 ↔
      ∀ fd, List.lookup fd before = List.lookup fd after := by
  constructor
  · intro h0 fd
    have hsum := h0
    rw [FDDelta.len] at hsum
    have ho : (mkFDDelta before after).opened = ∅ :=
      Finset.card_eq_zero.1 (by omega)
    have hc : (mkFDDelta before after).closed = ∅ :=
      Finset.card_eq_zero.1 (by omega)
    have hch : (mkFDDelta before after).changed = ∅ :=
      Finset.card_eq_zero.1 (by omega)
    rcases hb : List.lookup fd before with - | v <;>
      rcases ha : List.lookup fd after with - | w
    · rfl
    · exact absurd ((mem_opened_iff before after fd).2 ⟨by simp [ha], hb⟩)
        (by simp [ho])
    · exact absurd ((mem_closed_iff before after fd).2 ⟨by simp [hb], ha⟩)
        (by simp [hc])
    · by_cases hvw : v = w
      · rw [hvw]
      · exact absurd ((mem_changed_iff before after fd).2 ⟨v, w, hb, ha, hvw⟩)
          (by simp [hch])
  · intro hpt
    have ho : (mkFDDelta before after).opened = ∅ := by
      refine Finset.eq_empty_of_forall_not_mem (fun fd hfd => ?_)
      obtain ⟨ha, hb⟩ := (mem_opened_iff before after fd).1 hfd
      rw [hpt fd] at hb
      rw [hb] at ha
      exact Option.not_isSome_iff_eq_none.2 rfl ha
    have hc : (mkFDDelta before after).closed = ∅ := by
      refine Finset.eq_empty_of_forall_not_mem (fun fd hfd => ?_)
      obtain ⟨hb, ha⟩ := (mem_closed_iff before after fd).1 hfd
      rw [hpt fd, ha] at hb
      exact Option.not_isSome_iff_eq_none.2 rfl hb
    have hch : (mkFDDelta before after).changed = ∅ := by
      refine Finset.eq_empty_of_forall_not_mem (fun fd hfd => ?_)
      obtain ⟨v, w, hv, hw, hvw⟩ := (mem_changed_iff before after fd).1 hfd
      rw [hpt fd, hw] at hv
      exact hvw (Option.some_inj.1 hv).symm

    rw [FDDelta.len, ho, hc, hch]
    simp

/-- C8: for two snapshots separated by any sequence of descriptor
operations, the delta's `opened`, `closed` and `changed` sets are exactly
the created, freed and retyped descriptor numbers, `len` is the sum of the
three sizes and vanishes exactly when the snapshots agree on every
descriptor; opening two fresh descriptors (a pipe) puts both in `opened`,
duplicating onto a live descriptor holding a different object puts the
target in `changed`, and closing a live descriptor puts it in `closed`. -/
theorem c8_fddelta_characterizes (before : FDState) (ops : List FDOp) :
    (∀ fd, fd ∈ (mkFDDelta before (applyFDOps before ops)).opened ↔
      (List.lookup fd (applyFDOps before ops)).isSome ∧
        List.lookup fd before = none) ∧
    (∀ fd, fd ∈ (mkFDDelta before (applyFDOps before ops)).closed ↔
      (List.lookup fd before).isSome ∧
        List.lookup fd (applyFDOps before ops) = none) ∧
    (∀ fd, fd ∈ (mkFDDelta before (applyFDOps before ops)).changed ↔
      ∃ v w, List.lookup fd before = some v ∧
        List.lookup fd (applyFDOps before ops) = some w ∧ v ≠ w) ∧
    ((mkFDDelta before (applyFDOps before ops)).len =
      (mkFDDelta before (applyFDOps before ops)).opened.card +
      (mkFDDelta before (applyFDOps before ops)).closed.card +
      (mkFDDelta before (applyFDOps before ops)).changed.card) ∧
    ((mkFDDelta before (applyFDOps before ops)).len = 0 ↔
      ∀ fd, List.lookup fd before = List.lookup fd (applyFDOps before ops)) ∧
    (∀ (s : FDState) (f1 f2 : ℕ) (v1 v2 : ℕ × ℕ × ℕ),
      List.lookup f1 s = none → List.lookup f2 s = none → ¬ f1 = f2 →
      f1 ∈ (mkFDDelta s (applyFDOps s [.openFd f1 v1, .openFd f2 v2])).opened ∧
      f2 ∈ (mkFDDelta s (applyFDOps s [.openFd f1 v1, .openFd f2 v2])).opened) ∧
    (∀ (s : FDState) (src dst : ℕ) (vs vd : ℕ × ℕ × ℕ),
      List.lookup src s = some vs → List.lookup dst s = some vd → ¬ vs = vd →
      dst ∈ (mkFDDelta s (applyFDOps s [.dupFd src dst])).changed) ∧
    (∀ (s : FDState) (fd : ℕ) (v : ℕ × ℕ × ℕ), (alKeys s).Nodup →
      List.lookup fd s = some v →
      fd ∈ (mkFDDelta s (applyFDOps s [.closeFd fd])).closed) := by
  refine ⟨mem_opened_iff before _, mem_closed_iff before _,
    mem_changed_iff before _, rfl, fddelta_len_zero_iff before _, ?_, ?_, ?_⟩
  · intro s f1 f2 v1 v2 h1 h2 hne
    have hafter : applyFDOps s [.openFd f1 v1, .openFd f2 v2] =
        alInsert f2 v2 (alInsert f1 v1 s) := rfl
    constructor
    · rw [mem_opened_iff, hafter,
        lookup_alInsert_ne f2 f1 v2 _ hne, lookup_alInsert]
      exact ⟨rfl, h1⟩
    · rw [mem_opened_iff, hafter, lookup_alInsert]
      exact ⟨rfl, h2⟩
  · intro s src dst vs vd hsrc hdst hne
    have hafter : applyFDOps s [.dupFd src dst] = alInsert dst vs s := by
      simp [applyFDOps, applyFDOp, hsrc]
    rw [mem_changed_iff, hafter, lookup_alInsert]
    exact ⟨vd, vs, hdst, rfl, fun h => hne h.symm⟩
  · intro s fd v hn hv
    have hafter : applyFDOps s [.closeFd fd] =
        s.eraseP (fun e => e.1 == fd) := rfl
    rw [mem_closed_iff, hafter, lookup_eraseP_self fd hn]
    exact ⟨by simp [hv], rfl⟩

/-- Witness for C8: before-snapshot holding only descriptor 3, delta
against the snapshot after closing it — descriptor 3 lands in `closed`. -/
theorem c8_fddelta_characterizes_witness :
    (alKeys ([(3, (1, 2, 3))] : FDState)).Nodup ∧
    List.lookup 3 ([(3, (1, 2, 3))] : FDState) = some (1, 2, 3) ∧
    3 ∈ (mkFDDelta [(3, (1, 2, 3))]
      (applyFDOps [(3, (1, 2, 3))] [.closeFd 3])).closed := by
  refine ⟨by decide, by decide, ?_⟩
  exact (c8_fddelta_characterizes [(3, (1, 2, 3))] []).2.2.2.2.2.2.2
    [(3, (1, 2, 3))] 3 (1, 2, 3) (by decide) (by decide)

end Topotato
